import Mathlib

/-!
Shallow embedding of the core document-conversion pipeline of
`src/converter.py` (classes `TextNormalizer`, `DocumentProcessor`,
`MessageConverter`).  Strings are modelled as `List Char` (one element per
Unicode code point, matching Python's `str` indexing and `len`).  Fallible
Python operations (exceptions) are modelled with `Option`/`Except`.
-/

/-- Python strings, one entry per code point. -/
abbrev Str := List Char

/-- Convert a Lean string literal to the `Str` model. -/
def str (s : String) : Str := s.toList

/-- Python's whitespace set, as used by `str.strip()`, `str.split()` and the
`re` module's `\s` class on `str` inputs (`Py_UNICODE_ISSPACE`). -/
def pyWs (c : Char) : Bool :=
  c = ' ' || c = '\t' || c = '\n' || c = '\r' || c.val = 0x0b || c.val = 0x0c ||
  (0x1c ≤ c.val && c.val ≤ 0x1f) || c.val = 0x85 || c.val = 0xa0 ||
  c.val = 0x1680 || (0x2000 ≤ c.val && c.val ≤ 0x200a) || c.val = 0x2028 ||
  c.val = 0x2029 || c.val = 0x202f || c.val = 0x205f || c.val = 0x3000

/-- Drop trailing characters satisfying `p` (helper for `str.strip()`). -/
def dropEnd (p : Char → Bool) (l : Str) : Str :=
  (l.reverse.dropWhile p).reverse

/-- Python `text.strip()` (no argument): remove leading and trailing
whitespace. -/
def pyStrip (l : Str) : Str :=
  dropEnd pyWs (l.dropWhile pyWs)

/-- One pass of `re.sub(r'\s+', ' ', _)`: every maximal run of whitespace
becomes a single ASCII space.  The flag records whether the previous input
character was whitespace (in which case further whitespace emits nothing). -/
def collapseAux : Bool → Str → Str
  | _, [] => []
  | prevWs, c :: cs =>
    if pyWs c then
      if prevWs then collapseAux true cs else ' ' :: collapseAux true cs
    else c :: collapseAux false cs

/-- Characters removed by `re.sub(r'[\r\n\t\f\v]', '', _)` in `clean_text`. -/
def ctrlChar (c : Char) : Bool :=
  c = '\r' || c = '\n' || c = '\t' || c.val = 0x0c || c.val = 0x0b

/-- `TextNormalizer.clean_text`: falsy (empty) input yields `""`; otherwise
collapse whitespace runs over the stripped text, then delete
`[\r\n\t\f\v]` (a no-op after the collapse, kept for fidelity). -/
def clean_text (text : Str) : Str :=
  if text = [] then []
  else (collapseAux false (pyStrip text)).filter (fun c => !ctrlChar c)

/-- Python `s.split(sep)` for a one-character separator, keeping empty
parts (e.g. `"a||b".split('|') == ['a','','b']`, `"".split(c) == ['']`). -/
def splitChar (sep : Char) : Str → List Str
  | [] => [[]]
  | c :: cs =>
    if c = sep then [] :: splitChar sep cs
    else
      match splitChar sep cs with
      | [] => [[c]]
      | h :: t => (c :: h) :: t

/-- Python `s.split(sep, 1)` when `sep` occurs: the text before and after
the first occurrence (whole string and `[]` when absent). -/
def splitFirst (sep : Char) : Str → Str × Str
  | [] => ([], [])
  | c :: cs =>
    if c = sep then ([], cs)
    else
      let p := splitFirst sep cs
      (c :: p.1, p.2)

/-- Python `sep.join(parts)`. -/
def joinWith (sep : Str) (parts : List Str) : Str :=
  List.intercalate sep parts

/-- Python `s.startswith(pat)`. -/
def pyStartsWith : Str → Str → Bool
  | [], _ => true
  | _, [] => false
  | p :: ps, c :: cs => p = c && pyStartsWith ps cs

/-- Python `s.endswith(pat)`. -/
def pyEndsWith (pat l : Str) : Bool :=
  pyStartsWith pat.reverse l.reverse

/-- Helper for `str.split()` (no argument): accumulate the current token
(reversed) while scanning; whitespace separates tokens, empties dropped. -/
def pySplitAux : Str → Str → List Str
  | cur, [] => if cur = [] then [] else [cur.reverse]
  | cur, c :: cs =>
    if pyWs c then
      if cur = [] then pySplitAux [] cs else cur.reverse :: pySplitAux [] cs
    else pySplitAux (c :: cur) cs

/-- Python `s.split()` (split on whitespace runs, no empty tokens). -/
def pySplit (l : Str) : List Str := pySplitAux [] l

/-- Python `pat in s` (substring containment). -/
def isSub (pat : Str) : Str → Bool
  | [] => pyStartsWith pat []
  | c :: cs => pyStartsWith pat (c :: cs) || isSub pat cs

/-- Python `s.lower()`, modelled for ASCII letters only (the inputs fed to
it here are Japanese text and ASCII, on which this agrees with Python). -/
def pyLower (l : Str) : Str := l.map Char.toLower

/-- Decimal rendering of a natural number (Python `f"{n}"`). -/
def natStr (n : Nat) : Str := (toString n).toList

/-- Unicode decimal digits as matched by Python's `\d`, restricted to the
ASCII and full-width forms that occur in this pipeline's inputs. -/
def pyDigit (c : Char) : Bool :=
  ('0' ≤ c && c ≤ '9') || (0xff10 ≤ c.val && c.val ≤ 0xff19)

/-!
Section: Regex scanning helpers

The converter uses a small family of regular expressions.  Each is modelled
by a dedicated recursive scanner implementing exactly the backtracking
behaviour of the pattern on the inputs it receives.
-/

/-- Scan for the first character satisfying `isClose` (the lazy `+?`
terminator), failing on any earlier character satisfying `isBad` (the
negated character class, e.g. `[^|]`).  Returns the characters before the
terminator and the rest after it. -/
def scanClose (isClose isBad : Char → Bool) : Str → Option (Str × Str)
  | [] => none
  | c :: cs =>
    if isClose c then some ([], cs)
    else if isBad c then none
    else (scanClose isClose isBad cs).map (fun p => (c :: p.1, p.2))

/-- Lazy group match `(X+?)T` where `X` excludes `isBad` characters and `T`
is the closing class: the group takes at least one character (even one that
would close), then everything up to the first closing character. -/
def findLazyClose (isClose isBad : Char → Bool) : Str → Option (Str × Str)
  | [] => none
  | c :: cs =>
    if isBad c then none
    else (scanClose isClose isBad cs).map (fun p => (c :: p.1, p.2))

/-- The `[:：]` / `(?:：|\:)` character class. -/
def isColon (c : Char) : Bool := c = '：' || c = ':'

/-- `re.sub(r'【(.+?)】', r'### \1', _)`, fuel-indexed so that it is
structurally recursive (the fuel bounds the scan length; with
`fuel ≥ length` it never runs out).  On finding `【` with a matching lazy
`】` the whole match is replaced by `### ` + group and scanning resumes
after the match. -/
def markSubA : Nat → Str → Str
  | _, [] => []
  | 0, l => l
  | n + 1, c :: cs =>
    if c = '【' then
      match findLazyClose (fun d => d = '】') (fun _ => false) cs with
      | some (g, rest) => str "### " ++ g ++ markSubA n rest
      | none => c :: markSubA n cs
    else c :: markSubA n cs

/-- The bracket-heading substitution of `convert_to_markdown`. -/
def markSub (l : Str) : Str := markSubA l.length l

/-- A table line in `convert_to_markdown` / `_extract_main_content`:
`'|' in line or line.startswith('+-')`. -/
def isTableLine (line : Str) : Bool :=
  line.contains '|' || pyStartsWith (str "+-") line

/-- Python `cell.isspace()`: nonempty and all whitespace. -/
def pyIsSpaceStr (l : Str) : Bool := !l.isEmpty && l.all pyWs

/-- The table-block flattening of `convert_to_markdown` (both the mid-scan
flush and the final flush run this code): skip `+-`-prefixed border lines,
split the rest on `|`, strip each cell, and keep every cell that is truthy
and not all-whitespace. -/
def flattenTable (block : List Str) : List Str :=
  block.foldl
    (fun acc tl =>
      if pyStartsWith (str "+-") tl then acc
      else acc ++ ((splitChar '|' tl).map pyStrip).filter
        (fun cell => !cell.isEmpty && !pyIsSpaceStr cell))
    []

/-- Loop state of `convert_to_markdown`: emitted blocks, the `in_table`
flag, and the buffered table lines. -/
structure ConvState where
  lines : List Str
  in_table : Bool
  table : List Str

/-- One iteration of the line loop in `convert_to_markdown`. -/
def convStep (st : ConvState) (raw : Str) : ConvState :=
  let line := pyStrip raw
  if isTableLine line then
    ⟨st.lines, true, st.table ++ [line]⟩
  else if st.in_table then
    -- table just ended: flush it; the current line itself is consumed
    ⟨st.lines ++ flattenTable st.table, false, []⟩
  else if line ≠ [] then
    if line.contains '：' then
      let p := splitFirst '：' line
      ⟨st.lines ++ [str "### " ++ pyStrip p.1 ++ ['\n'] ++ pyStrip p.2],
        false, st.table⟩
    else ⟨st.lines ++ [line], false, st.table⟩
  else st

/-- `DocumentProcessor.convert_to_markdown` on a proper string (the
`try/except` wrapper is modelled at the call site): normalize, replace
`【..】` headings, scan line by line, flush a trailing table block, and
join the emitted blocks with blank lines. -/
def convert_to_markdown (content : Str) : Str :=
  let content := clean_text content
  let content := markSub content
  let st := (splitChar '\n' content).foldl convStep ⟨[], false, []⟩
  let lines := if st.table ≠ [] then st.lines ++ flattenTable st.table
               else st.lines
  joinWith (str "\n\n") lines

/-!
Section: Structure extraction

`DocumentProcessor.extract_structure` renders the intermediate markup with
the external `markdown` library and walks the HTML with BeautifulSoup.
The model below implements the behaviour of that library combination on
the block-shaped markup `convert_to_markdown` emits (blank-line separated
blocks; ATX `#`-headings; consecutive plain lines of a block become one
paragraph whose text keeps the inner newlines and is stripped at the
edges).  Unused library features (setext headings, lists, inline markup,
indented code blocks, trailing-hash stripping beyond `#*$`) do not arise
in that markup and are not modelled.
-/

/-- A heading node of the structure dictionary: heading text and the
paragraph texts attached to it. -/
structure HNode where
  text : Str
  content : List Str
deriving DecidableEq

/-- The structure dictionary `{'h1': [...], 'h2': [...], 'h3': [...],
'text': [...]}`. -/
structure DocStructure where
  h1 : List HNode
  h2 : List HNode
  h3 : List HNode
  text : List Str
deriving DecidableEq

/-- An HTML element seen by the BeautifulSoup walk: a heading of level
1–6, or a paragraph. -/
inductive MdElem where
  | h (lvl : Nat) (text : Str)
  | p (text : Str)
deriving DecidableEq

/-- Strip the trailing `#*` of an ATX heading. -/
def dropClosingHashes (l : Str) : Str :=
  dropEnd (fun c => c = '#') l

/-- Parse one markup line as an element, given the pending paragraph run:
`#`-prefixed lines are ATX headings (level = number of leading `#`,
capped at 6), everything else extends the paragraph run. -/
def mdFlushRun (run : List Str) : List MdElem :=
  if run = [] then [] else [MdElem.p (pyStrip (joinWith ['\n'] run))]

/-- Parse the markup into the element sequence produced by
`markdown.markdown` + `soup.find_all(['h1','h2','h3','p'])`. -/
def mdElems (md : Str) : List MdElem :=
  let step := fun (st : List MdElem × List Str) (line : Str) =>
    if line = [] then (st.1 ++ mdFlushRun st.2, [])
    else if pyStartsWith ['#'] line then
      let k := min (line.takeWhile (fun c => c = '#')).length 6
      (st.1 ++ mdFlushRun st.2 ++
        [MdElem.h k (pyStrip (dropClosingHashes (line.drop k)))], [])
    else (st.1, st.2 ++ [line])
  let st := (splitChar '\n' md).foldl step ([], [])
  st.1 ++ mdFlushRun st.2

/-- Append a paragraph to the `content` list of the last heading node. -/
def pushLast (ns : List HNode) (t : Str) : List HNode :=
  match ns with
  | [] => []
  | [n] => [⟨n.text, n.content ++ [t]⟩]
  | n :: rest => n :: pushLast rest t

/-- Add a paragraph to the structure, given the level of the current
section (the most recently opened h1–h3 heading), or to the top-level
`text` list when no section is open. -/
def addPara (s : DocStructure) (cur : Option Nat) (t : Str) : DocStructure :=
  match cur with
  | some 1 => { s with h1 := pushLast s.h1 t }
  | some 2 => { s with h2 := pushLast s.h2 t }
  | some 3 => { s with h3 := pushLast s.h3 t }
  | _ => { s with text := s.text ++ [t] }

/-- Fold the element sequence into the structure dictionary.  Headings of
level 4–6 are invisible to `find_all(['h1','h2','h3','p'])`, so they
neither open a section nor change the current one. -/
def buildStructure (elems : List MdElem) : DocStructure :=
  let step := fun (st : DocStructure × Option Nat) (e : MdElem) =>
    match e with
    | MdElem.h 1 t => ({ st.1 with h1 := st.1.h1 ++ [⟨t, []⟩] }, some 1)
    | MdElem.h 2 t => ({ st.1 with h2 := st.1.h2 ++ [⟨t, []⟩] }, some 2)
    | MdElem.h 3 t => ({ st.1 with h3 := st.1.h3 ++ [⟨t, []⟩] }, some 3)
    | MdElem.h _ _ => st
    | MdElem.p t => (addPara st.1 st.2 t, st.2)
  ((elems.foldl step (⟨[], [], [], []⟩, none))).1

/-- `DocumentProcessor.extract_structure` (total on proper strings; the
`markdown` library does not raise on text input). -/
def extract_structure (md : Str) : DocStructure :=
  buildStructure (mdElems md)

/-!
Section: Column-name canonicalization (`MessageConverter._normalize_column_name`)
-/

/-- The prefix list stripped from column names, in source order. -/
def colPrefixes : List Str :=
  [str "部署", str "お", str "■", str "□", str "●", str "※"]

/-- The suffix list stripped from column names, in source order. -/
def colSuffixes : List Str :=
  [str "・事業所名", str "の内容", str "について", str "のお願い",
   str "：", str ":", str "欄"]

/-- The synonym table mapping spellings to canonical column names. -/
def colMapping : List (Str × Str) :=
  [(str "企画名", str "企画"), (str "締切日", str "締切"),
   (str "文字数", str "文字制限"), (str "メッセージ", str "原稿"),
   (str "本文", str "原稿"), (str "氏名", str "名前"),
   (str "フリガナ", str "名前"), (str "所属", str "部署"),
   (str "事業所", str "部署")]

/-- Assoc-list lookup (Python `dict.get`). -/
def assocFind (m : List (Str × Str)) (k : Str) : Option Str :=
  match m with
  | [] => none
  | p :: ps => if p.1 = k then some p.2 else assocFind ps k

/-- The prefix loop: each listed prefix is stripped at most once, in
order, from the evolving name. -/
def stripLeads : List Str → Str → Str
  | [], n => n
  | p :: ps, n =>
    stripLeads ps (if pyStartsWith p n then n.drop p.length else n)

/-- The suffix loop: each listed suffix is stripped at most once, in
order, from the evolving name. -/
def stripTrails : List Str → Str → Str
  | [], n => n
  | sfx :: ps, n =>
    stripTrails ps
      (if pyEndsWith sfx n then n.take (n.length - sfx.length) else n)

/-- `MessageConverter._normalize_column_name`. -/
def normalize_column_name (name : Str) : Str :=
  let n := pyStrip name
  let n := stripLeads colPrefixes n
  let n := stripTrails colSuffixes n
  let n := pyStrip n
  (assocFind colMapping n).getD n

/-!
Section: Body-content extraction (`MessageConverter._extract_main_content`)
-/

/-- `re.match(r'^[\d\s]+$', text)`: nonempty and all digits/whitespace. -/
def isDigitSpace (l : Str) : Bool :=
  !l.isEmpty && l.all (fun c => pyDigit c || pyWs c)

/-- `re.match(r'^[-=＝]+$', line)`: a separator-only line. -/
def isSepLine (l : Str) : Bool :=
  !l.isEmpty && l.all (fun c => c = '-' || c = '=' || c = '＝')

/-- The inner `process_chunk`: clean the text and keep it only when it is
at least 20 characters and not digits/whitespace only. -/
def process_chunk (text : Str) : Option Str :=
  let t := clean_text text
  if 20 ≤ t.length && !isDigitSpace t then some t else none

/-- Close the current chunk: `process_chunk(' '.join(current_chunk))`,
yielding zero or one candidate. -/
def closeChunk (cur : List Str) : List Str :=
  if cur = [] then []
  else
    match process_chunk (joinWith [' '] cur) with
    | some t => [t]
    | none => []

/-- One cell of a table line in `_extract_main_content`: kept only when it
is at least 20 characters and survives `process_chunk`. -/
def cellStep (acc : List Str) (cell : Str) : List Str :=
  if 20 ≤ cell.length then
    match process_chunk cell with
    | some t => acc ++ [t]
    | none => acc
  else acc

/-- The per-table-line cell candidates: cells of length ≥ 20 that survive
`process_chunk`. -/
def cellChunks (line : Str) : List Str :=
  ((splitChar '|' line).map pyStrip).foldl cellStep []

/-- Loop state of `_extract_main_content`: collected candidates, current
chunk lines, and the (effectively inert) `in_table` flag. -/
structure BodyState where
  chunks : List Str
  cur : List Str
  in_table : Bool

/-- One iteration of the paragraph loop in `_extract_main_content`.  Table
lines close the current chunk and contribute cell candidates; separator
lines are skipped without closing the chunk; empty lines close the chunk;
other lines extend it.  (After a table line any non-table line resets
`in_table` before the text handling, so the flag never suppresses it.) -/
def bodyStep (st : BodyState) (raw : Str) : BodyState :=
  let line := pyStrip raw
  if isTableLine line then
    let chunks := st.chunks ++ closeChunk st.cur
    let chunks := if line.contains '|' then chunks ++ cellChunks line
                  else chunks
    ⟨chunks, [], true⟩
  else if line ≠ [] then
    if isSepLine line then ⟨st.chunks, st.cur, false⟩
    else ⟨st.chunks, st.cur ++ [line], false⟩
  else if st.cur ≠ [] then ⟨st.chunks ++ closeChunk st.cur, [], false⟩
  else ⟨st.chunks, [], false⟩

/-- The two fixed annotation markers. -/
def markShort : Str := str "（要追記）"

/-- The over-length annotation marker. -/
def markLong : Str := str "（文字数超過）"

/-- `max(chunks, key=len)`: the first candidate of maximal length. -/
def maxByLen (c : Str) (rest : List Str) : Str :=
  rest.foldl (fun a b => if a.length < b.length then b else a) c

/-- The candidate pool `all_text_chunks` of `_extract_main_content` after
the scan and the final chunk close. -/
def bodyChunks (paragraphs : List Str) : List Str :=
  let st := paragraphs.foldl bodyStep ⟨[], [], false⟩
  st.chunks ++ closeChunk st.cur

/-- `MessageConverter._extract_main_content`. -/
def extract_main_content (paragraphs : List Str) : Str :=
  match bodyChunks paragraphs with
  | [] => []
  | c :: rest =>
    let main := maxByLen c rest
    if main.length < 150 then main ++ markShort
    else if 200 < main.length then main.take 200 ++ markLong
    else main

/-!
Section: Column discovery (`MessageConverter.extract_potential_columns`)
-/

/-- `re.findall(r'\|\s*([^|]+?)\s*(?:：|\:)', content)`: every `|`-opened
lazy key up to a colon with no intervening `|`; scanning resumes after
each match.  Fuel-indexed for structural recursion (fuel ≥ length
suffices).  The `\s*` padding around the group is left inside the returned
group: every use site strips it (`_normalize_column_name` begins with
`strip`). -/
def findTableHeadersA : Nat → Str → List Str
  | _, [] => []
  | 0, _ => []
  | n + 1, c :: cs =>
    if c = '|' then
      match findLazyClose isColon (fun d => d = '|') cs with
      | some (g, rest) => g :: findTableHeadersA n rest
      | none => findTableHeadersA n cs
    else findTableHeadersA n cs

/-- The table-header scan of `extract_potential_columns`. -/
def findTableHeaders (content : Str) : List Str :=
  findTableHeadersA content.length content

/-- `re.search(r'【(.+?)】', line)`: first bracketed heading group. -/
def searchBracket : Str → Option Str
  | [] => none
  | c :: cs =>
    if c = '【' then
      match findLazyClose (fun d => d = '】') (fun _ => false) cs with
      | some (g, _) => some g
      | none => searchBracket cs
    else searchBracket cs

/-- `re.search(r'M\s*(.+?)\s*[:：]', line)` for a corner mark `M` (`■`,
`□`, `●`): first mark followed (lazily) by a colon; if a mark has no
later colon the search continues at the next mark.  As above, the `\s*`
padding stays inside the group and is stripped by the caller. -/
def searchMark (mark : Char) : Str → Option Str
  | [] => none
  | c :: cs =>
    if c = mark then
      match findLazyClose isColon (fun _ => false) cs with
      | some (g, _) => some g
      | none => searchMark mark cs
    else searchMark mark cs

/-- Insert into the discovered set (modelled as a duplicate-free list in
insertion order). -/
def insertCol (cols : List Str) (c : Str) : List Str :=
  if c ∈ cols then cols else cols ++ [c]

/-- The four heading patterns of `extract_potential_columns`, in source
order. -/
def headerSearches : List (Str → Option Str) :=
  [searchBracket, searchMark '■', searchMark '□', searchMark '●']

/-- The sentence-fragment stoplist of `extract_potential_columns`. -/
def colStoplist : List Str :=
  [str "について", str "お願い", str "です", str "ます", str "した",
   str "から", str "注意", str "備考"]

/-- `MessageConverter.extract_potential_columns`. -/
def extract_potential_columns (content : Str) : List Str :=
  let cols := [str "番号"]
  let cols := (findTableHeaders content).foldl
    (fun acc h =>
      let normalized := normalize_column_name h
      if normalized ≠ [] then insertCol acc normalized else acc)
    cols
  let cols := (splitChar '\n' content).foldl
    (fun acc rawLine =>
      let line := pyStrip rawLine
      headerSearches.foldl
        (fun acc search =>
          match search line with
          | some g =>
            let column_name := pyStrip g
            if column_name ≠ [] then
              let normalized := normalize_column_name column_name
              if normalized ≠ [] then insertCol acc normalized else acc
            else acc
          | none => acc)
        acc)
    cols
  let cols :=
    if pyStrip (extract_main_content (splitChar '\n' content)) ≠ [] then
      insertCol cols (str "原稿")
    else cols
  cols.filter
    (fun col => !(colStoplist.any (fun sk => isSub sk (pyLower col))))

/-!
Section: Per-column extraction, validation, and the document pipeline
-/

/-- Gather the content lists of every h2/h3 node whose canonicalized
heading equals the requested column (the two `for` loops at the top of
`extract_content_for_column`). -/
def gatherContent (s : DocStructure) (column : Str) : List Str :=
  let c := s.h2.foldl
    (fun acc it =>
      if normalize_column_name it.text = column then acc ++ it.content
      else acc)
    []
  s.h3.foldl
    (fun acc it =>
      if normalize_column_name it.text = column then acc ++ it.content
      else acc)
    c

/-- `extract_content_for_column`.  The `result.split()[0]` indexing for the
name/department columns can raise `IndexError` in Python; that failure is
modelled as `none`. -/
def extract_content_for_column (s : DocStructure) (column : Str) :
    Option Str :=
  let content := gatherContent s column
  let content :=
    if column = str "原稿" ∧ content = [] then
      [extract_main_content s.text]
    else content
  let result := pyStrip (joinWith [' '] content)
  if column = str "原稿" then some result
  else if column = str "部署" ∨ column = str "名前" then
    if result ≠ [] then (pySplit result).get? 0 else some []
  else some result

/-- A record value: the identifier `番号` is a Python `int`, every other
field a `str`. -/
inductive Val where
  | vnat (n : Nat)
  | vstr (s : Str)
deriving DecidableEq

/-- A record: Python's insertion-ordered `dict`, as an assoc list. -/
abbrev Record := List (Str × Val)

/-- Key lookup in a record (`field in data` / `data[field]`). -/
def recFind (data : Record) (k : Str) : Option Val :=
  match data with
  | [] => none
  | p :: ps => if p.1 = k then some p.2 else recFind ps k

/-- The `原稿` validation rule `lambda x: 150 <= len(x) <= 200 if x else
False`.  A non-string value would raise in Python; it cannot occur in
records built by `process_document` and is modelled as `false`. -/
def ruleGenko : Val → Bool
  | Val.vstr s => if s ≠ [] then decide (150 ≤ s.length ∧ s.length ≤ 200)
                  else false
  | Val.vnat _ => false

/-- The `lambda x: bool(x and x.strip())` rule for `名前`/`部署`/`企画`
(non-strings cannot occur, modelled as `false`). -/
def ruleNonEmpty : Val → Bool
  | Val.vstr s => !s.isEmpty && !(pyStrip s).isEmpty
  | Val.vnat _ => false

/-- `validation_rules`, in source (dict) order. -/
def validation_rules : List (Str × (Val → Bool)) :=
  [(str "原稿", ruleGenko), (str "名前", ruleNonEmpty),
   (str "部署", ruleNonEmpty), (str "企画", ruleNonEmpty)]

/-- Length of a record value as Python's `len` would see it (only ever
applied to the `原稿` string). -/
def valLen : Val → Nat
  | Val.vstr s => s.length
  | Val.vnat _ => 0

/-- The over/under-length validation message for the `原稿` field. -/
def lenErrMsg (field : Str) (count : Nat) : Str :=
  field ++ str "の文字数が不適切です（現在: " ++ natStr count ++
    str "文字, 要件: 150-200文字）"

/-- `MessageConverter.validate_data`. -/
def validate_data (data : Record) : List Str :=
  validation_rules.foldl
    (fun errs rule =>
      match recFind data rule.1 with
      | some v =>
        if !rule.2 v then
          if rule.1 = str "原稿" then errs ++ [lenErrMsg rule.1 (valLen v)]
          else errs ++ [rule.1 ++ str "が未入力です"]
        else errs
      | none => errs)
    []

/-- A `ProcessingError` (the `details` default and the wall-clock
`timestamp` carry no information used by the pipeline and are omitted). -/
structure PError where
  document_index : Nat
  error_type : Str
  message : Str
deriving DecidableEq

/-- A value read from `doc['document_content']`: a proper string, or a
truthy non-string object (on which `clean_text`'s `text.strip()` raises
`AttributeError`, surfaced by `convert_to_markdown` as `ValueError`). -/
inductive PyVal where
  | pstr (s : Str)
  | other
deriving DecidableEq

/-- The re-raised transcode failure message (`ValueError(f"Markdown変換
エラー: {e}")` wrapping the attribute error of the non-string input). -/
def transcodeErrMsg : Str :=
  str "Markdown変換エラー: 'int' object has no attribute 'strip'"

/-- `convert_to_markdown` including its `try/except`: total on proper
strings, failing on non-string content. -/
def convert_to_markdown_val : PyVal → Except Str Str
  | PyVal.pstr s => Except.ok (convert_to_markdown s)
  | PyVal.other => Except.error transcodeErrMsg

/-- One iteration of the column loop in `process_document`: skip columns
already present, otherwise extract and append.  `none` models an uncaught
exception inside the loop. -/
def recordStep (s : DocStructure) (d : Record) (column : Str) :
    Option Record :=
  if (recFind d column).isSome then pure d
  else do
    let content ← extract_content_for_column s column
    pure (d ++ [(column, Val.vstr content)])

/-- The record-building part of `process_document`: seed `番号`, run the
special two-step `企画名`/`企画` lookup when `企画` is selected, then fill
every remaining selected column via `recordStep`. -/
def buildRecord (selected : List Str) (s : DocStructure) (index : Nat) :
    Option Record := do
  let data : Record := [(str "番号", Val.vnat (index + 1))]
  let data ←
    if str "企画" ∈ selected then do
      let v1 ← extract_content_for_column s (str "企画名")
      let v ← if v1 ≠ [] then pure v1
              else extract_content_for_column s (str "企画")
      pure (data ++ [(str "企画", Val.vstr v)])
    else pure data
  selected.foldlM (recordStep s) data

/-- `MessageConverter.process_document`: returns the record (or `None`
after a caught exception) together with the errors this document appends
to the processor's list. -/
def process_document (selected : List Str) (doc : PyVal) (index : Nat) :
    Option Record × List PError :=
  match convert_to_markdown_val doc with
  | Except.error e => (none, [⟨index, str "処理エラー", e⟩])
  | Except.ok md =>
    let s := extract_structure md
    match buildRecord selected s index with
    | none => (none, [⟨index, str "処理エラー", str "IndexError"⟩])
    | some data =>
      (some data,
        (validate_data data).map (fun m => ⟨index, str "検証エラー", m⟩))

/-- `MessageConverter.process_documents`: reset the error list, process
each document in order, and keep every truthy record.  (The `DataFrame`
wrapper is external; the record list is returned directly.) -/
def process_documents (selected : List Str) (documents : List PyVal) :
    List Record × List PError :=
  documents.enum.foldl
    (fun acc idoc =>
      let r := process_document selected idoc.2 idoc.1
      let recs := match r.1 with
        | some data => if data ≠ [] then acc.1 ++ [data] else acc.1
        | none => acc.1
      (recs, acc.2 ++ r.2))
    ([], [])


/-!
Section: Reference description of the body-line runs

An independent traversal computing, directly from the paragraph list, the
maximal runs of consecutive nonempty non-table lines (separator-only lines
dropped) that `_extract_main_content` accumulates as chunks.  Used to state
the corrected version of the "short lines give an empty body" property.
-/

/-- The runs of stripped body lines, starting from a pending run `cur`:
table lines and empty lines close the pending run, separator-only lines
are dropped without closing it, other lines extend it. -/
def runsAux : List Str → List Str → List (List Str)
  | cur, [] => if cur = [] then [] else [cur]
  | cur, raw :: rest =>
    let line := pyStrip raw
    if isTableLine line then
      (if cur = [] then [] else [cur]) ++ runsAux [] rest
    else if line ≠ [] then
      if isSepLine line then runsAux cur rest
      else runsAux (cur ++ [line]) rest
    else
      (if cur = [] then [] else [cur]) ++ runsAux [] rest

/-- The maximal body-line runs of a paragraph list. -/
def bodyRuns (paragraphs : List Str) : List (List Str) :=
  runsAux [] paragraphs

/-!
Section: Helper lemmas: whitespace, stripping and collapsing
-/

/-- Every character removed by `clean_text`'s second regex is whitespace. -/
theorem ctrl_ws (c : Char) (h : ctrlChar c = true) : pyWs c = true := by
  simp only [ctrlChar, Bool.or_eq_true, decide_eq_true_eq] at h
  rcases h with ((((h | h) | h) | h) | h)
  · subst h; decide
  · subst h; decide
  · subst h; decide
  · simp [pyWs, h]
  · simp [pyWs, h]

/-- `dropWhile` with a false head is the identity. -/
theorem dropWhile_cons_false (p : Char → Bool) (c : Char) (t : Str)
    (h : p c = false) : (c :: t).dropWhile p = c :: t := by
  simp [List.dropWhile, h]

/-- The head of a `dropWhile` result does not satisfy the predicate. -/
theorem dropWhile_head_false (p : Char → Bool) :
    ∀ l : Str, l.dropWhile p = [] ∨
      ∃ c t, l.dropWhile p = c :: t ∧ p c = false := by
  intro l
  induction l with
  | nil => exact Or.inl rfl
  | cons c cs ih =>
    by_cases h : p c
    · simpa [List.dropWhile, h] using ih
    · exact Or.inr ⟨c, cs, by simp [List.dropWhile, h], by simp [h]⟩

/-- `dropWhile` twice is `dropWhile` once. -/
theorem dropWhile_idem (p : Char → Bool) (l : Str) :
    (l.dropWhile p).dropWhile p = l.dropWhile p := by
  rcases dropWhile_head_false p l with h | ⟨c, t, h, hc⟩
  · simp [h]
  · rw [h, dropWhile_cons_false p c t hc]

/-- A `dropEnd` result is the original list minus a tail of characters
satisfying the predicate. -/
theorem dropEnd_decomp (p : Char → Bool) (l : Str) :
    ∃ w, l = dropEnd p l ++ w ∧ ∀ c ∈ w, p c = true := by
  refine ⟨(l.reverse.takeWhile p).reverse, ?_, ?_⟩
  · rw [dropEnd, ← List.reverse_append, List.takeWhile_append_dropWhile,
      List.reverse_reverse]
  · intro c hc
    rw [List.mem_reverse] at hc
    exact List.mem_takeWhile_imp hc

/-- `dropEnd` keeps the head of the list (when nonempty). -/
theorem dropEnd_head (p : Char → Bool) (l : Str) (c : Char) (t : Str)
    (h : dropEnd p l = c :: t) : ∃ t', l = c :: t' := by
  obtain ⟨w, hw, -⟩ := dropEnd_decomp p l
  exact ⟨t ++ w, by rw [hw, h]; rfl⟩

/-- The last element of a `dropEnd` result does not satisfy the
predicate. -/
theorem dropEnd_last_false (p : Char → Bool) (l : Str) :
    dropEnd p l = [] ∨
      ∃ c, (dropEnd p l).getLast? = some c ∧ p c = false := by
  rcases dropWhile_head_false p l.reverse with h | ⟨c, t, h, hc⟩
  · left; simp [dropEnd, h]
  · right
    exact ⟨c, by simp [dropEnd, h], hc⟩

/-- `dropEnd` twice is `dropEnd` once. -/
theorem dropEnd_idem (p : Char → Bool) (l : Str) :
    dropEnd p (dropEnd p l) = dropEnd p l := by
  simp [dropEnd, List.reverse_reverse, dropWhile_idem]

/-- A nonempty `pyStrip` result starts with a non-whitespace character. -/
theorem pyStrip_head (l : Str) :
    pyStrip l = [] ∨ ∃ c t, pyStrip l = c :: t ∧ pyWs c = false := by
  rcases h : pyStrip l with _ | ⟨c, t⟩
  · exact Or.inl rfl
  · right
    refine ⟨c, t, rfl, ?_⟩
    rcases dropWhile_head_false pyWs l with h1 | ⟨c', t', h1, hc'⟩
    · rw [pyStrip, h1] at h; simp [dropEnd] at h
    · rw [pyStrip, h1] at h
      obtain ⟨t'', ht''⟩ := dropEnd_head pyWs (c' :: t') c t h
      cases ht''; exact hc'

/-- A nonempty `pyStrip` result ends with a non-whitespace character. -/
theorem pyStrip_last (l : Str) :
    pyStrip l = [] ∨
      ∃ c, (pyStrip l).getLast? = some c ∧ pyWs c = false := by
  exact dropEnd_last_false pyWs (l.dropWhile pyWs)

/-- `pyStrip` is idempotent. -/
theorem pyStrip_idem (l : Str) : pyStrip (pyStrip l) = pyStrip l := by
  have h1 : (pyStrip l).dropWhile pyWs = pyStrip l := by
    rcases pyStrip_head l with h | ⟨c, t, h, hc⟩
    · simp [h]
    · rw [h, dropWhile_cons_false pyWs c t hc]
  rw [pyStrip, h1, pyStrip, dropEnd_idem]

/-- Unfolding step: a whitespace character with the flag clear. -/
theorem collapseAux_ws_f (x : Char) (xs : Str) (hx : pyWs x = true) :
    collapseAux false (x :: xs) = ' ' :: collapseAux true xs := by
  simp only [collapseAux, hx, if_true, Bool.false_eq_true, if_false]

/-- Unfolding step: a whitespace character with the flag set. -/
theorem collapseAux_ws_t (x : Char) (xs : Str) (hx : pyWs x = true) :
    collapseAux true (x :: xs) = collapseAux true xs := by
  simp only [collapseAux, hx, if_true]

/-- Unfolding step: a non-whitespace character. -/
theorem collapseAux_nws (b : Bool) (x : Char) (xs : Str)
    (hx : pyWs x = false) :
    collapseAux b (x :: xs) = x :: collapseAux false xs := by
  cases b <;> simp only [collapseAux, hx, Bool.false_eq_true, if_false]

/-- Any whitespace character surviving the collapse pass is the single
space it was replaced with. -/
theorem collapseAux_ws_mem (s : Str) :
    ∀ (b : Bool) (c : Char), c ∈ collapseAux b s → pyWs c = true →
      c = ' ' := by
  induction s with
  | nil => intro b c hc; simp [collapseAux] at hc
  | cons x xs ih =>
    intro b c hc hw
    cases hx : pyWs x with
    | true =>
      cases b with
      | true =>
        rw [collapseAux_ws_t x xs hx] at hc
        exact ih true c hc hw
      | false =>
        rw [collapseAux_ws_f x xs hx] at hc
        rcases List.mem_cons.mp hc with h | h
        · exact h
        · exact ih true c h hw
    | false =>
      rw [collapseAux_nws b x xs hx] at hc
      rcases List.mem_cons.mp hc with h | h
      · subst h; rw [hw] at hx; cases hx
      · exact ih false c h hw

/-- With the flag set, the collapse output never starts with whitespace. -/
theorem collapseAux_true_head (s : Str) :
    ∀ c, (collapseAux true s).head? = some c → pyWs c = false := by
  induction s with
  | nil => intro c hc; simp [collapseAux] at hc
  | cons x xs ih =>
    intro c hc
    cases hx : pyWs x with
    | true =>
      rw [collapseAux_ws_t x xs hx] at hc
      exact ih c hc
    | false =>
      rw [collapseAux_nws true x xs hx] at hc
      simp only [List.head?_cons, Option.some.injEq] at hc
      cases hc
      exact hx

/-- The collapse output never contains two adjacent spaces. -/
theorem collapseAux_chain (s : Str) :
    ∀ b, List.Chain' (fun a c => ¬(a = ' ' ∧ c = ' ')) (collapseAux b s) := by
  induction s with
  | nil => intro b; simp [collapseAux]
  | cons x xs ih =>
    intro b
    cases hx : pyWs x with
    | true =>
      cases b with
      | true => rw [collapseAux_ws_t x xs hx]; exact ih true
      | false =>
        rw [collapseAux_ws_f x xs hx, List.chain'_cons']
        refine ⟨?_, ih true⟩
        intro y hy hcon
        have hhd : (collapseAux true xs).head? = some y := by
          cases hh : (collapseAux true xs).head? with
          | none => rw [hh] at hy; cases hy
          | some z => rw [hh] at hy; simp at hy; rw [hy]
        have hws := collapseAux_true_head xs y hhd
        rw [hcon.2] at hws
        have hsp : pyWs ' ' = true := by decide
        rw [hsp] at hws
        cases hws
    | false =>
      rw [collapseAux_nws b x xs hx, List.chain'_cons']
      refine ⟨?_, ih false⟩
      intro y hy hcon
      rw [hcon.1] at hx
      have hsp : pyWs ' ' = true := by decide
      rw [hsp] at hx
      cases hx

/-- The collapse pass keeps the non-whitespace characters unchanged. -/
theorem collapseAux_filter (s : Str) :
    ∀ b, (collapseAux b s).filter (fun c => !pyWs c) =
      s.filter (fun c => !pyWs c) := by
  induction s with
  | nil => intro b; simp [collapseAux]
  | cons x xs ih =>
    intro b
    have hsp : pyWs ' ' = true := by decide
    cases hx : pyWs x with
    | true =>
      cases b with
      | true =>
        rw [collapseAux_ws_t x xs hx, List.filter_cons, ih true]
        simp [hx]
      | false =>
        rw [collapseAux_ws_f x xs hx, List.filter_cons, List.filter_cons,
          ih true]
        simp [hx, hsp]
    | false =>
      rw [collapseAux_nws b x xs hx, List.filter_cons, List.filter_cons,
        ih false]

/-- The collapse pass preserves a non-whitespace last character. -/
theorem collapseAux_last (s : Str) :
    ∀ b c, s.getLast? = some c → pyWs c = false →
      (collapseAux b s).getLast? = some c := by
  induction s with
  | nil => intro b c hc; simp at hc
  | cons x xs ih =>
    intro b c hc hw
    cases xs with
    | nil =>
      simp only [List.getLast?_singleton, Option.some.injEq] at hc
      subst hc
      rw [collapseAux_nws b x [] hw]
      simp [collapseAux]
    | cons y ys =>
      rw [List.getLast?_cons_cons] at hc
      have tail : ∀ b', (collapseAux b' (y :: ys)).getLast? = some c :=
        fun b' => ih b' c hc hw
      have tail_ne : ∀ b', collapseAux b' (y :: ys) ≠ [] := by
        intro b' hnil
        have := tail b'
        rw [hnil] at this
        cases this
      cases hx : pyWs x with
      | true =>
        cases b with
        | true => rw [collapseAux_ws_t x (y :: ys) hx]; exact tail true
        | false =>
          rw [collapseAux_ws_f x (y :: ys) hx]
          rcases hne : collapseAux true (y :: ys) with _ | ⟨z, zs⟩
          · exact absurd hne (tail_ne true)
          · rw [List.getLast?_cons_cons, ← hne]
            exact tail true
      | false =>
        rw [collapseAux_nws b x (y :: ys) hx]
        rcases hne : collapseAux false (y :: ys) with _ | ⟨z, zs⟩
        · exact absurd hne (tail_ne false)
        · rw [List.getLast?_cons_cons, ← hne]
          exact tail false

/-- The collapse pass never lengthens the text. -/
theorem collapseAux_length (s : Str) :
    ∀ b, (collapseAux b s).length ≤ s.length := by
  induction s with
  | nil => intro b; simp [collapseAux]
  | cons x xs ih =>
    intro b
    cases hx : pyWs x with
    | true =>
      cases b with
      | true =>
        rw [collapseAux_ws_t x xs hx]
        exact Nat.le_succ_of_le (ih true)
      | false =>
        rw [collapseAux_ws_f x xs hx, List.length_cons, List.length_cons]
        exact Nat.succ_le_succ (ih true)
    | false =>
      rw [collapseAux_nws b x xs hx, List.length_cons, List.length_cons]
      exact Nat.succ_le_succ (ih false)

/-- `dropWhile` never lengthens the list. -/
theorem dropWhile_length (p : Char → Bool) (l : Str) :
    (l.dropWhile p).length ≤ l.length := by
  induction l with
  | nil => simp
  | cons c cs ih =>
    by_cases h : p c
    · simp only [List.dropWhile, h, if_true]
      exact Nat.le_succ_of_le ih
    · simp [List.dropWhile, h]

/-- `dropEnd` never lengthens the list. -/
theorem dropEnd_length (p : Char → Bool) (l : Str) :
    (dropEnd p l).length ≤ l.length := by
  rw [dropEnd, List.length_reverse]
  calc (l.reverse.dropWhile p).length ≤ l.reverse.length :=
        dropWhile_length p l.reverse
  _ = l.length := List.length_reverse l

/-- Stripping never lengthens the string. -/
theorem pyStrip_length (l : Str) : (pyStrip l).length ≤ l.length := by
  calc (pyStrip l).length ≤ (l.dropWhile pyWs).length :=
        dropEnd_length pyWs (l.dropWhile pyWs)
  _ ≤ l.length := dropWhile_length pyWs l

/-- Cleaning never lengthens the string. -/
theorem clean_text_length (t : Str) : (clean_text t).length ≤ t.length := by
  rw [clean_text]
  by_cases h : t = []
  · simp [h]
  · simp only [h, if_false]
    calc ((collapseAux false (pyStrip t)).filter
            (fun c => !ctrlChar c)).length
        ≤ (collapseAux false (pyStrip t)).length :=
          List.length_filter_le _ _
    _ ≤ (pyStrip t).length := collapseAux_length (pyStrip t) false
    _ ≤ t.length := pyStrip_length t

/-- Any whitespace character in a `clean_text` result is a space. -/
theorem clean_text_ws_mem (t : Str) (c : Char) (hc : c ∈ clean_text t)
    (hw : pyWs c = true) : c = ' ' := by
  rw [clean_text] at hc
  by_cases h : t = []
  · simp [h] at hc
  · simp only [h, if_false] at hc
    exact collapseAux_ws_mem (pyStrip t) false c (List.mem_filter.mp hc).1 hw

/-- The `[\r\n\t\f\v]`-removal pass of `clean_text` is the identity after
the whitespace collapse. -/
theorem clean_text_eq_collapse (t : Str) (h : t ≠ []) :
    clean_text t = collapseAux false (pyStrip t) := by
  rw [clean_text, if_neg h]
  apply List.filter_eq_self.mpr
  intro c hc
  cases hctrl : ctrlChar c with
  | false => simp
  | true =>
    have hws := ctrl_ws c hctrl
    have := collapseAux_ws_mem (pyStrip t) false c hc hws
    subst this
    cases hctrl

/-- `clean_text` output never contains a newline. -/
theorem clean_text_no_newline (t : Str) : '\n' ∉ clean_text t := by
  intro hmem
  have := clean_text_ws_mem t '\n' hmem (by decide)
  cases this

/-- `clean_text` output never contains two adjacent spaces. -/
theorem clean_text_chain (t : Str) :
    List.Chain' (fun a c => ¬(a = ' ' ∧ c = ' ')) (clean_text t) := by
  by_cases h : t = []
  · simp [clean_text, h]
  · rw [clean_text_eq_collapse t h]
    exact collapseAux_chain (pyStrip t) false

/-- `clean_text` output does not start with a space. -/
theorem clean_text_head (t : Str) : (clean_text t).head? ≠ some ' ' := by
  by_cases h : t = []
  · simp [clean_text, h]
  · rw [clean_text_eq_collapse t h]
    rcases pyStrip_head t with hs | ⟨c, u, hs, hc⟩
    · rw [hs]; simp [collapseAux]
    · rw [hs, collapseAux_nws false c u hc]
      intro hcon
      simp only [List.head?_cons, Option.some.injEq] at hcon
      subst hcon
      cases hc

/-- `clean_text` output does not end with a space. -/
theorem clean_text_last (t : Str) : (clean_text t).getLast? ≠ some ' ' := by
  by_cases h : t = []
  · simp [clean_text, h]
  · rw [clean_text_eq_collapse t h]
    rcases pyStrip_last t with hs | ⟨c, hs, hc⟩
    · rw [hs]; simp [collapseAux]
    · rw [collapseAux_last (pyStrip t) false c hs hc]
      intro hcon
      simp only [Option.some.injEq] at hcon
      subst hcon
      cases hc

/-- `dropWhile` keeps the characters not satisfying the predicate. -/
theorem dropWhile_filter (p : Char → Bool) (l : Str) :
    (l.dropWhile p).filter (fun c => !p c) = l.filter (fun c => !p c) := by
  induction l with
  | nil => rfl
  | cons c cs ih =>
    cases hc : p c with
    | true => simp [List.dropWhile, hc, List.filter_cons, ih]
    | false => simp [List.dropWhile, hc, List.filter_cons]

/-- `pyStrip` keeps the non-whitespace characters. -/
theorem pyStrip_filter (l : Str) :
    (pyStrip l).filter (fun c => !pyWs c) = l.filter (fun c => !pyWs c) := by
  rw [pyStrip, dropEnd, List.filter_reverse, dropWhile_filter,
    List.filter_reverse, List.reverse_reverse, dropWhile_filter]

/-- `clean_text` keeps the non-whitespace characters unchanged: full-width
digits (and everything else that is not whitespace) pass through. -/
theorem clean_text_filter (t : Str) :
    (clean_text t).filter (fun c => !pyWs c) =
      t.filter (fun c => !pyWs c) := by
  by_cases h : t = []
  · simp [clean_text, h]
  · rw [clean_text_eq_collapse t h, collapseAux_filter, pyStrip_filter]

/-- Membership of a non-whitespace character is invariant under
`clean_text`. -/
theorem clean_text_mem (t : Str) (c : Char) (hc : pyWs c = false) :
    c ∈ clean_text t ↔ c ∈ t := by
  constructor
  · intro h
    have : c ∈ (clean_text t).filter (fun d => !pyWs d) :=
      List.mem_filter.mpr ⟨h, by rw [hc]; rfl⟩
    rw [clean_text_filter] at this
    exact (List.mem_filter.mp this).1
  · intro h
    have : c ∈ t.filter (fun d => !pyWs d) :=
      List.mem_filter.mpr ⟨h, by rw [hc]; rfl⟩
    rw [← clean_text_filter] at this
    exact (List.mem_filter.mp this).1

/-!
Section: Helper lemmas: canonicalization
-/

/-- The prefix loop is the identity when no listed prefix matches. -/
theorem stripLeads_id (ps : List Str) (n : Str)
    (h : ∀ p ∈ ps, pyStartsWith p n = false) : stripLeads ps n = n := by
  induction ps with
  | nil => rfl
  | cons p ps ih =>
    have hp := h p (List.mem_cons_self p ps)
    simp only [stripLeads, hp, Bool.false_eq_true, if_false]
    exact ih (fun q hq => h q (List.mem_cons_of_mem p hq))

/-- The suffix loop is the identity when no listed suffix matches. -/
theorem stripTrails_id (ps : List Str) (n : Str)
    (h : ∀ sfx ∈ ps, pyEndsWith sfx n = false) : stripTrails ps n = n := by
  induction ps with
  | nil => rfl
  | cons sfx ps ih =>
    have hp := h sfx (List.mem_cons_self sfx ps)
    simp only [stripTrails, hp, Bool.false_eq_true, if_false]
    exact ih (fun q hq => h q (List.mem_cons_of_mem sfx hq))

/-- Every value of the synonym table is already stripped. -/
theorem colMapping_value_stripped (k v : Str)
    (h : assocFind colMapping k = some v) : pyStrip v = v := by
  simp only [colMapping, assocFind] at h
  split_ifs at h <;> simp only [Option.some.injEq] at h <;> subst h <;>
    decide

/-- The output of `_normalize_column_name` is always stripped. -/
theorem normalize_column_name_stripped (name : Str) :
    pyStrip (normalize_column_name name) = normalize_column_name name := by
  rw [normalize_column_name]
  cases hm : assocFind colMapping
      (pyStrip (stripTrails colSuffixes
        (stripLeads colPrefixes (pyStrip name)))) with
  | none => simp only [hm, Option.getD_none]; exact pyStrip_idem _
  | some v =>
    simp only [hm, Option.getD_some]
    exact colMapping_value_stripped _ v hm

/-- A stripped name on which no prefix, suffix or synonym rule fires is a
fixed point of `_normalize_column_name`. -/
theorem normalize_column_name_fixed (y : Str) (hs : pyStrip y = y)
    (h1 : ∀ p ∈ colPrefixes, pyStartsWith p y = false)
    (h2 : ∀ sfx ∈ colSuffixes, pyEndsWith sfx y = false)
    (h3 : assocFind colMapping y = none) :
    normalize_column_name y = y := by
  rw [normalize_column_name, hs, stripLeads_id _ _ h1, stripTrails_id _ _ h2,
    hs, h3]
  rfl

/-!
Section: Helper lemmas: whitespace splitting and per-column extraction
-/

/-- `pySplitAux` with a nonempty pending token never returns the empty
list. -/
theorem pySplitAux_ne_nil (s : Str) :
    ∀ cur : Str, cur ≠ [] → pySplitAux cur s ≠ [] := by
  induction s with
  | nil => intro cur h; simp [pySplitAux, h]
  | cons c cs ih =>
    intro cur h
    by_cases hw : pyWs c
    · simp only [pySplitAux, hw, if_true, h, if_false]
      exact List.cons_ne_nil _ _
    · simp only [pySplitAux, hw, Bool.false_eq_true, if_false]
      exact ih (c :: cur) (List.cons_ne_nil c cur)

/-- `str.split()` of a string with a non-whitespace head is nonempty. -/
theorem pySplit_ne_nil (c : Char) (t : Str) (hc : pyWs c = false) :
    pySplit (c :: t) ≠ [] := by
  rw [pySplit]
  simp only [pySplitAux, hc, Bool.false_eq_true, if_false]
  exact pySplitAux_ne_nil t [c] (List.cons_ne_nil c [])

/-- `extract_content_for_column` never raises: the `result.split()[0]`
indexing is reachable only when `result` is nonempty, and a nonempty
stripped string has a non-whitespace head, so `split()` is nonempty. -/
theorem extract_content_ne_none (s : DocStructure) (column : Str) :
    extract_content_for_column s column ≠ none := by
  rw [extract_content_for_column]
  by_cases hg : column = str "原稿"
  · simp [hg]
  · simp only [hg, false_and, if_false, ite_false]
    by_cases hnd : column = str "部署" ∨ column = str "名前"
    · simp only [hnd, if_true, ite_true]
      by_cases hr : pyStrip (joinWith [' '] (gatherContent s column)) = []
      · simp [hr]
      · rcases pyStrip_head (joinWith [' '] (gatherContent s column)) with
          h0 | ⟨c, u, heq, hc⟩
        · exact absurd h0 hr
        · rw [heq]
          have hs : pySplit (c :: u) ≠ [] := pySplit_ne_nil c u hc
          cases hsp : pySplit (c :: u) with
          | nil => exact absurd hsp hs
          | cons v vs => simp [hsp]
    · simp [hnd]

/-!
Section: Helper lemmas: the bracket substitution and line splitting
-/

/-- A successful `scanClose` splits the input at the first closing
character. -/
theorem scanClose_decomp (isC isB : Char → Bool) :
    ∀ (l g r : Str), scanClose isC isB l = some (g, r) →
      ∃ d, l = g ++ d :: r ∧ isC d = true := by
  intro l
  induction l with
  | nil => intro g r h; simp [scanClose] at h
  | cons c cs ih =>
    intro g r h
    by_cases hc : isC c
    · simp only [scanClose, hc, if_true, Option.some.injEq, Prod.mk.injEq]
        at h
      rw [← h.1, ← h.2]
      exact ⟨c, rfl, hc⟩
    · by_cases hb : isB c
      · simp [scanClose, hc, hb] at h
      · simp only [scanClose, hc, hb, Bool.false_eq_true, if_false,
          Option.map_eq_some'] at h
        obtain ⟨⟨g', r'⟩, hg', heq⟩ := h
        obtain ⟨d, hdec, hd⟩ := ih g' r' hg'
        simp only [Prod.mk.injEq] at heq
        rw [← heq.1, ← heq.2, hdec]
        exact ⟨d, rfl, hd⟩

/-- A successful `findLazyClose` splits the input at the closing
character, with a nonempty group. -/
theorem findLazyClose_decomp (isC isB : Char → Bool) (l g r : Str)
    (h : findLazyClose isC isB l = some (g, r)) :
    ∃ d, l = g ++ d :: r ∧ isC d = true ∧ g ≠ [] := by
  cases l with
  | nil => simp [findLazyClose] at h
  | cons c cs =>
    by_cases hb : isB c
    · simp [findLazyClose, hb] at h
    · simp only [findLazyClose, hb, Bool.false_eq_true, if_false,
        Option.map_eq_some'] at h
      obtain ⟨⟨g', r'⟩, hg', heq⟩ := h
      obtain ⟨d, hdec, hd⟩ := scanClose_decomp isC isB cs g' r' hg'
      simp only [Prod.mk.injEq] at heq
      rw [← heq.1, ← heq.2, hdec]
      exact ⟨d, rfl, hd, List.cons_ne_nil c g'⟩

/-- Membership of a character other than the brackets and the inserted
`### ` characters is invariant under the bracket substitution. -/
theorem markSubA_mem (a : Char) (ha1 : a ≠ '【') (ha2 : a ≠ '】')
    (ha3 : a ∉ str "### ") :
    ∀ (n : Nat) (s : Str), a ∈ markSubA n s ↔ a ∈ s := by
  intro n
  induction n with
  | zero => intro s; cases s <;> simp [markSubA]
  | succ n ih =>
    intro s
    cases s with
    | nil => simp [markSubA]
    | cons c cs =>
      by_cases hc : c = '【'
      · subst hc
        rw [markSubA, if_pos rfl]
        cases hf : findLazyClose (fun d => d = '】') (fun _ => false) cs with
        | none => simp [ih, ha1]
        | some p =>
          obtain ⟨g, rest⟩ := p
          obtain ⟨d, hdec, hd, -⟩ :=
            findLazyClose_decomp (fun d => d = '】') (fun _ => false)
              cs g rest hf
          have hd' : d = '】' := by simpa using hd
          subst hd'
          rw [hdec]
          simp [ih, ha1, ha2, ha3, List.mem_append]
      · rw [markSubA, if_neg hc]
        simp [ih]

/-- Membership of a character other than the brackets and `### ` is
invariant under `markSub`. -/
theorem markSub_mem (a : Char) (ha1 : a ≠ '【') (ha2 : a ≠ '】')
    (ha3 : a ∉ str "### ") (s : Str) : a ∈ markSub s ↔ a ∈ s :=
  markSubA_mem a ha1 ha2 ha3 s.length s

/-- Splitting on an absent separator yields the whole string. -/
theorem splitChar_singleton (sep : Char) (s : Str) (h : sep ∉ s) :
    splitChar sep s = [s] := by
  induction s with
  | nil => rfl
  | cons c cs ih =>
    have hc : ¬(c = sep) := fun hcc => h (hcc ▸ List.mem_cons_self c cs)
    rw [splitChar, if_neg hc, ih (fun hm => h (List.mem_cons_of_mem c hm))]

/-- Membership of a non-whitespace character is invariant under
`pyStrip`. -/
theorem pyStrip_mem (l : Str) (c : Char) (hc : pyWs c = false) :
    c ∈ pyStrip l ↔ c ∈ l := by
  constructor
  · intro h
    have : c ∈ (pyStrip l).filter (fun d => !pyWs d) :=
      List.mem_filter.mpr ⟨h, by rw [hc]; rfl⟩
    rw [pyStrip_filter] at this
    exact (List.mem_filter.mp this).1
  · intro h
    have : c ∈ l.filter (fun d => !pyWs d) :=
      List.mem_filter.mpr ⟨h, by rw [hc]; rfl⟩
    rw [← pyStrip_filter] at this
    exact (List.mem_filter.mp this).1

/-- `List.contains` agrees with membership for characters. -/
theorem contains_mem (l : Str) (a : Char) : l.contains a = true ↔ a ∈ l :=
  List.elem_iff

/-- Joining a single block is that block. -/
theorem joinWith_singleton (sep x : Str) : joinWith sep [x] = x := by
  simp [joinWith, List.intercalate]

/-!
Section: Helper lemmas: suffixes and the annotation markers
-/

/-- Of two suffixes of the same list, the shorter is a suffix of the
longer. -/
theorem suffix_of_suffix_le (l m1 m2 : Str) (h1 : m1 <:+ l) (h2 : m2 <:+ l)
    (hlen : m1.length ≤ m2.length) : m1 <:+ m2 := by
  obtain ⟨a, ha⟩ := h1
  obtain ⟨b, hb⟩ := h2
  have hab : a ++ m1 = b ++ m2 := by rw [ha, hb]
  have hblen : b.length ≤ a.length := by
    have hl := congrArg List.length hab
    simp only [List.length_append] at hl
    omega
  have hsplit : a = a.take b.length ++ a.drop b.length :=
    (List.take_append_drop _ a).symm
  rw [hsplit, List.append_assoc] at hab
  have hlen2 : (a.take b.length).length = b.length := by
    rw [List.length_take]
    exact min_eq_left hblen
  obtain ⟨-, h4⟩ := List.append_inj hab hlen2
  exact ⟨a.drop b.length, h4⟩

/-- The under-length marker never ends an over-length-annotated string. -/
theorem markShort_not_suffix (core : Str) :
    ¬(markShort <:+ core ++ markLong) := by
  intro h
  have h2 : markLong <:+ core ++ markLong := List.suffix_append core markLong
  have := suffix_of_suffix_le (core ++ markLong) markShort markLong h h2
    (by decide)
  revert this
  decide

/-- The over-length marker never ends an under-length-annotated string. -/
theorem markLong_not_suffix (core : Str) :
    ¬(markLong <:+ core ++ markShort) := by
  intro h
  have h2 : markShort <:+ core ++ markShort :=
    List.suffix_append core markShort
  have := suffix_of_suffix_le (core ++ markShort) markShort markLong h2 h
    (by decide)
  revert this
  decide

/-!
Section: Helper lemmas: table flattening
-/

/-- The cell lines a single table line contributes when flattened. -/
theorem flattenTable_foldl (f : List Str → Str → List Str)
    (hf : f = fun acc tl =>
      if pyStartsWith (str "+-") tl then acc
      else acc ++ ((splitChar '|' tl).map pyStrip).filter
        (fun cell => !cell.isEmpty && !pyIsSpaceStr cell)) :
    ∀ (block acc : List Str),
      block.foldl f acc =
        acc ++ (block.filter (fun l => !pyStartsWith (str "+-") l)).flatMap
          (fun l => ((splitChar '|' l).map pyStrip).filter
            (fun cell => !cell.isEmpty && !pyIsSpaceStr cell)) := by
  intro block
  induction block with
  | nil => intro acc; simp
  | cons l ls ih =>
    intro acc
    rw [List.foldl_cons, ih, List.filter_cons]
    cases hb : pyStartsWith (str "+-") l with
    | true => simp [hf, hb]
    | false =>
      simp only [hb, Bool.not_false, if_true, List.flatMap_cons, hf,
        Bool.false_eq_true, if_false, List.append_assoc]

/-!
Section: Helper lemmas: body-content extraction
-/

/-- Every part of a `splitChar` result is at most as long as the input. -/
theorem splitChar_mem_length (sep : Char) :
    ∀ (l part : Str), part ∈ splitChar sep l → part.length ≤ l.length := by
  intro l
  induction l with
  | nil =>
    intro part h
    simp only [splitChar, List.mem_singleton] at h
    simp [h]
  | cons c cs ih =>
    intro part h
    by_cases hc : c = sep
    · rw [splitChar, if_pos hc] at h
      rcases List.mem_cons.mp h with h1 | h1
      · simp [h1]
      · exact le_trans (ih part h1) (Nat.le_succ _)
    · rw [splitChar, if_neg hc] at h
      cases hsp : splitChar sep cs with
      | nil =>
        rw [hsp] at h
        simp only [List.mem_singleton] at h
        subst h
        simp [Nat.succ_le_succ (Nat.zero_le _)]
      | cons hd tl =>
        rw [hsp] at h
        rcases List.mem_cons.mp h with h1 | h1
        · subst h1
          have hhd : hd ∈ splitChar sep cs := by
            rw [hsp]; exact List.mem_cons_self hd tl
          simpa using Nat.succ_le_succ (ih hd hhd)
        · have hmem : part ∈ splitChar sep cs := by
            rw [hsp]; exact List.mem_cons_of_mem hd h1
          exact le_trans (ih part hmem) (Nat.le_succ _)

/-- A chunk whose raw joined text is under 20 characters contributes no
candidate. -/
theorem closeChunk_nil (cur : List Str)
    (h : (joinWith [' '] cur).length < 20) : closeChunk cur = [] := by
  rw [closeChunk]
  by_cases hc : cur = []
  · simp [hc]
  · simp only [hc, if_false]
    have hpc : process_chunk (joinWith [' '] cur) = none := by
      rw [process_chunk]
      have hlen : (clean_text (joinWith [' '] cur)).length < 20 :=
        lt_of_le_of_lt (clean_text_length _) h
      have hdec : decide (20 ≤ (clean_text (joinWith [' '] cur)).length) =
          false := decide_eq_false (by omega)
      simp [hdec]
    rw [hpc]

/-- Short cells contribute nothing to the candidate fold. -/
theorem cellFold_id (cells : List Str) :
    ∀ acc, (∀ cell ∈ cells, cell.length < 20) →
      cells.foldl cellStep acc = acc := by
  induction cells with
  | nil => intro acc _; rfl
  | cons c cs ih =>
    intro acc h
    have hc := h c (List.mem_cons_self c cs)
    rw [List.foldl_cons, cellStep, if_neg (by omega)]
    exact ih acc (fun x hx => h x (List.mem_cons_of_mem c hx))

/-- A table line under 20 characters contributes no cell candidates. -/
theorem cellChunks_nil (line : Str) (h : line.length < 20) :
    cellChunks line = [] := by
  rw [cellChunks]
  apply cellFold_id
  intro cell hc
  obtain ⟨part, hp, hcell⟩ := List.mem_map.mp hc
  rw [← hcell]
  exact lt_of_le_of_lt
    (le_trans (pyStrip_length part) (splitChar_mem_length '|' line part hp)) h

/-- Main scan invariant for the corrected "short input" property: when
every pending or future body-line run joins to under 20 characters and
every stripped line is under 20 characters, the scan (started with an
empty candidate pool) ends with an empty candidate pool. -/
theorem bodyScan_nil :
    ∀ (ps : List Str) (cur : List Str) (tb : Bool),
      (∀ r ∈ runsAux cur ps, (joinWith [' '] r).length < 20) →
      (∀ l ∈ ps, (pyStrip l).length < 20) →
      (ps.foldl bodyStep ⟨[], cur, tb⟩).chunks ++
        closeChunk (ps.foldl bodyStep ⟨[], cur, tb⟩).cur = [] := by
  intro ps
  induction ps with
  | nil =>
    intro cur tb h1 h2
    simp only [List.foldl_nil]
    have hcc : closeChunk cur = [] := by
      by_cases hc : cur = []
      · simp [closeChunk, hc]
      · exact closeChunk_nil cur (h1 cur (by simp [runsAux, hc]))
    simp [hcc]
  | cons l ls ih =>
    intro cur tb h1 h2
    rw [List.foldl_cons]
    have hline : (pyStrip l).length < 20 := h2 l (List.mem_cons_self l ls)
    have h2' : ∀ x ∈ ls, (pyStrip x).length < 20 :=
      fun x hx => h2 x (List.mem_cons_of_mem l hx)
    have hccur : cur ≠ [] →
        (joinWith [' '] cur).length < 20 →
        closeChunk cur = [] := fun _ => closeChunk_nil cur
    by_cases ht : isTableLine (pyStrip l)
    · have hcc : closeChunk cur = [] := by
        by_cases hc : cur = []
        · simp [closeChunk, hc]
        · apply closeChunk_nil
          apply h1
          simp only [runsAux, ht, if_true, hc, if_false]
          exact List.mem_append_left _ (List.mem_cons_self cur [])
      have hcell : cellChunks (pyStrip l) = [] := cellChunks_nil _ hline
      have hstep : bodyStep ⟨[], cur, tb⟩ l = ⟨[], [], true⟩ := by
        rw [bodyStep]
        simp only [ht, if_true, hcc, hcell]
        cases hpipe : (pyStrip l).contains '|' <;> simp
      rw [hstep]
      refine ih [] true ?_ h2'
      intro r hr
      apply h1
      simp only [runsAux, ht, if_true]
      exact List.mem_append_right _ hr
    · by_cases hne : pyStrip l = []
      · have hcc : closeChunk cur = [] := by
          by_cases hc : cur = []
          · simp [closeChunk, hc]
          · apply closeChunk_nil
            apply h1
            simp only [runsAux, ht, Bool.false_eq_true, if_false, hne,
              ne_eq, not_true_eq_false, hc]
            exact List.mem_append_left _ (List.mem_cons_self cur [])
        have htnil : isTableLine ([] : Str) = false := by decide
        have hstep : bodyStep ⟨[], cur, tb⟩ l = ⟨[], [], false⟩ := by
          rw [bodyStep]
          simp only [ht, Bool.false_eq_true, if_false, hne, ne_eq,
            not_true_eq_false, htnil]
          by_cases hc : cur = [] <;> simp [hc, hcc, htnil]
        rw [hstep]
        refine ih [] false ?_ h2'
        intro r hr
        apply h1
        simp only [runsAux, ht, Bool.false_eq_true, if_false, hne, ne_eq,
          not_true_eq_false]
        exact List.mem_append_right _ hr
      · by_cases hsep : isSepLine (pyStrip l)
        · have hstep : bodyStep ⟨[], cur, tb⟩ l = ⟨[], cur, false⟩ := by
            rw [bodyStep]
            simp only [ht, Bool.false_eq_true, if_false, hne, ne_eq,
              not_false_eq_true, if_true, hsep]
          rw [hstep]
          refine ih cur false ?_ h2'
          intro r hr
          apply h1
          simp only [runsAux, ht, Bool.false_eq_true, if_false, hne, ne_eq,
            not_false_eq_true, if_true, hsep]
          exact hr
        · have hstep : bodyStep ⟨[], cur, tb⟩ l =
              ⟨[], cur ++ [pyStrip l], false⟩ := by
            rw [bodyStep]
            simp only [ht, Bool.false_eq_true, if_false, hne, ne_eq,
              not_false_eq_true, if_true, hsep]
          rw [hstep]
          refine ih (cur ++ [pyStrip l]) false ?_ h2'
          intro r hr
          apply h1
          simp only [runsAux, ht, Bool.false_eq_true, if_false, hne, ne_eq,
            not_false_eq_true, if_true, hsep]
          exact hr

/-!
Section: Helper lemmas: the document pipeline
-/

/-- Appending on the right keeps the head. -/
theorem head?_append_some {α : Type} (l m : List α) (x : α)
    (h : l.head? = some x) : (l ++ m).head? = some x := by
  cases l with
  | nil => cases h
  | cons a t => simpa using h

/-- The head of a list with `head? = some x` makes it nonempty. -/
theorem ne_nil_of_head? {α : Type} (l : List α) (x : α)
    (h : l.head? = some x) : l ≠ [] := by
  cases l with
  | nil => cases h
  | cons a t => exact List.cons_ne_nil a t

/-- A record whose head is `(k, v)` looks `k` up to `v`. -/
theorem recFind_head (data : Record) (k : Str) (v : Val)
    (h : data.head? = some (k, v)) : recFind data k = some v := by
  cases data with
  | nil => cases h
  | cons p ps =>
    simp only [List.head?_cons, Option.some.injEq] at h
    subst h
    simp [recFind]

/-- The column loop never fails and preserves the seeded head entry. -/
theorem foldRecord_some (s : DocStructure) :
    ∀ (cols : List Str) (d : Record) (x : Str × Val),
      d.head? = some x →
      ∃ data, List.foldlM (recordStep s) d cols = some data ∧
        data.head? = some x := by
  intro cols
  induction cols with
  | nil => intro d x h; exact ⟨d, rfl, h⟩
  | cons c cs ih =>
    intro d x h
    rw [List.foldlM_cons]
    by_cases hf : (recFind d c).isSome
    · rw [recordStep, if_pos hf]
      exact ih d x h
    · rw [recordStep, if_neg hf]
      cases he : extract_content_for_column s c with
      | none => exact absurd he (extract_content_ne_none s c)
      | some v =>
        simp only [he, Option.bind_eq_bind, Option.some_bind]
        exact ih (d ++ [(c, Val.vstr v)]) x (head?_append_some d _ x h)

/-- `buildRecord` never fails and seeds `番号` with `index + 1` as the
first record entry. -/
theorem buildRecord_some (selected : List Str) (s : DocStructure)
    (index : Nat) :
    ∃ data, buildRecord selected s index = some data ∧
      data.head? = some (str "番号", Val.vnat (index + 1)) := by
  rw [buildRecord]
  by_cases hk : str "企画" ∈ selected
  · simp only [hk, if_true]
    cases h1 : extract_content_for_column s (str "企画名") with
    | none => exact absurd h1 (extract_content_ne_none s (str "企画名"))
    | some v1 =>
      by_cases hv1 : v1 ≠ []
      · simp only [h1, Option.bind_eq_bind, Option.some_bind]
        rw [if_pos hv1]
        simp only [Option.pure_def, Option.some_bind]
        exact foldRecord_some s selected _ _
          (head?_append_some [(str "番号", Val.vnat (index + 1))]
            [(str "企画", Val.vstr v1)]
            (str "番号", Val.vnat (index + 1)) rfl)
      · simp only [h1, Option.bind_eq_bind, Option.some_bind]
        rw [if_neg hv1]
        cases h2 : extract_content_for_column s (str "企画") with
        | none => exact absurd h2 (extract_content_ne_none s (str "企画"))
        | some v2 =>
          simp only [h2, Option.pure_def, Option.some_bind]
          exact foldRecord_some s selected _ _
            (head?_append_some [(str "番号", Val.vnat (index + 1))]
              [(str "企画", Val.vstr v2)]
              (str "番号", Val.vnat (index + 1)) rfl)
  · simp only [hk, if_false]
    exact foldRecord_some s selected _ _ rfl

/-- Processing a proper-string document always yields a record seeded with
the right identifier, and appends only validation errors. -/
theorem process_document_pstr (selected : List Str) (d : Str)
    (index : Nat) :
    ∃ data, process_document selected (PyVal.pstr d) index =
        (some data,
          (validate_data data).map
            (fun m => ⟨index, str "検証エラー", m⟩)) ∧
      data.head? = some (str "番号", Val.vnat (index + 1)) := by
  obtain ⟨data, hb, hh⟩ :=
    buildRecord_some selected (extract_structure (convert_to_markdown d))
      index
  refine ⟨data, ?_, hh⟩
  rw [process_document]
  simp only [convert_to_markdown_val, hb]

/-!
Section: Claim theorems
-/

/-- C1: on the spec's scenario document
`"【名前】\n田中太郎\n【原稿】\nこれは短い本文です。"` with selected
columns `["名前","原稿"]`, the code does NOT produce the record claimed by
the spec.  `clean_text` collapses the newlines to spaces before
`convert_to_markdown` splits on lines, so the whole document becomes the
single h3 heading `名前 田中太郎 ### 原稿 これは短い本文です。`; both
field extractions come back empty, and validation flags the empty `名前`
in addition to the body-length rule.  This theorem evaluates the embedded
code at the failing input, exhibiting the actual record
`{番号: 1, 名前: "", 原稿: ""}` and the two validation errors. -/
theorem c1_scenario_actual_behaviour :
    process_document [str "名前", str "原稿"]
      (PyVal.pstr (str "【名前】\n田中太郎\n【原稿】\nこれは短い本文です。")) 0 =
    (some [(str "番号", Val.vnat 1), (str "名前", Val.vstr []),
           (str "原稿", Val.vstr [])],
     [⟨0, str "検証エラー",
        str "原稿の文字数が不適切です（現在: 0文字, 要件: 150-200文字）"⟩,
      ⟨0, str "検証エラー", str "名前が未入力です"⟩]) := by
  decide

/-- C2 counterexample: canonicalization is not idempotent.  For
`"お部署"` the honorific prefix `お` is stripped, giving `部署` — but
`部署` itself begins with the listed prefix `部署`, so a second
canonicalization strips it to the empty string. -/
theorem c2_not_idempotent :
    normalize_column_name (normalize_column_name (str "お部署")) ≠
      normalize_column_name (str "お部署") := by
  decide

/-- C4 counterexample: there is no generic `key:` line pattern family in
`extract_potential_columns`.  On the input consisting exactly of the plain
line `締切日：4/1` (no table cell, no bracket, no corner mark) the
discovered set is just `{番号}` — in particular it does not contain the
canonical column `締切`, contradicting the claim. -/
theorem c4_plain_key_line_not_discovered :
    extract_potential_columns (str "締切日：4/1") = [str "番号"] ∧
      str "締切" ∉ extract_potential_columns (str "締切日：4/1") := by
  decide

/-- C4 amended: discovery only applies the table-cell and
bracket/corner-mark pattern families.  A corner-marked line
`■締切日：4/1` does yield the canonical column `締切` via the synonym
mapping (and not the raw `締切日`), while the plain line alone yields
nothing beyond `番号`. -/
theorem c4_corner_marked_key_line_discovered :
    extract_potential_columns (str "■締切日：4/1") =
        [str "番号", str "締切"] ∧
      str "締切日" ∉ extract_potential_columns (str "■締切日：4/1") := by
  decide

/-- C6 counterexample: two consecutive 15-character lines (each below the
20-character line threshold) are joined into a single 31-character chunk,
so body extraction returns a non-empty (annotated) result even though no
single line has length ≥ 20. -/
theorem c6_short_lines_join_to_long_chunk :
    (∀ l ∈ [str "あいうえおかきくけこさしすせそ",
            str "あいうえおかきくけこさしすせそ"], l.length < 20) ∧
      extract_main_content
        [str "あいうえおかきくけこさしすせそ",
         str "あいうえおかきくけこさしすせそ"] ≠ [] := by
  decide

/-- C7 counterexample: when a table block is flattened, every nonempty
non-whitespace cell is emitted verbatim — the cell `a` (length < 20,
no colon) is NOT discarded and the colon cell `名前：田中` is NOT turned
into a `### 名前` heading/value pair, contradicting the claim. -/
theorem c7_flatten_emits_all_cells :
    flattenTable [str "a|名前：田中"] = [str "a", str "名前：田中"] ∧
      convert_to_markdown (str "a|名前：田中") = str "a\n\n名前：田中" ∧
      (str "a").length < 20 ∧ ¬ (str "a").contains '：' ∧
      ¬ (str "a").contains ':' := by
  decide

/-- C8 counterexample: `clean_text` does not convert full-width digits to
ASCII digits — `１２３` passes through unchanged. -/
theorem c8_fullwidth_digits_unchanged :
    clean_text (str "１２３") = str "１２３" ∧
      clean_text (str "１２３") ≠ str "123" := by
  decide

/-- C2 amended: canonicalization is idempotent exactly on those inputs
whose canonical form is itself irreducible — when the output of
`_normalize_column_name` starts with none of the listed prefixes, ends
with none of the listed suffixes, and is not a key of the synonym table,
a second canonicalization returns it unchanged.  (The counterexample
`お部署` shows the unconditional claim fails: its canonical form `部署`
is itself a strippable prefix.) -/
theorem c2_idempotent_on_irreducible (name : Str)
    (h1 : ∀ p ∈ colPrefixes,
      pyStartsWith p (normalize_column_name name) = false)
    (h2 : ∀ sfx ∈ colSuffixes,
      pyEndsWith sfx (normalize_column_name name) = false)
    (h3 : assocFind colMapping (normalize_column_name name) = none) :
    normalize_column_name (normalize_column_name name) =
      normalize_column_name name :=
  normalize_column_name_fixed (normalize_column_name name)
    (normalize_column_name_stripped name) h1 h2 h3

/-- C2 witness: the amended idempotence applies to `締切日`, whose
canonical form `締切` is irreducible. -/
theorem c2_idempotent_witness :
    normalize_column_name (normalize_column_name (str "締切日")) =
      normalize_column_name (str "締切日") :=
  c2_idempotent_on_irreducible (str "締切日") (by decide) (by decide)
    (by decide)

/-- C3: in a batch of three documents whose middle document raises during
transcoding (modelled by non-string content) while the other two are
proper strings, the pipeline returns exactly two records, whose `番号`
identifiers are 1 and 3, and the error list contains exactly one
document-level `処理エラー`, referencing index 1; the failing document
contributes no record.  Stated for an arbitrary selected-column list and
arbitrary text of the two good documents. -/
theorem c3_failing_document_contained (selected : List Str) (d0 d2 : Str) :
    ((process_documents selected
        [PyVal.pstr d0, PyVal.other, PyVal.pstr d2]).1.length = 2) ∧
    ((process_documents selected
        [PyVal.pstr d0, PyVal.other, PyVal.pstr d2]).1.map
          (fun r => recFind r (str "番号")) =
        [some (Val.vnat 1), some (Val.vnat 3)]) ∧
    (((process_documents selected
        [PyVal.pstr d0, PyVal.other, PyVal.pstr d2]).2.filter
          (fun e => e.error_type == str "処理エラー")).map
        (fun e => (e.document_index, e.error_type)) =
      [(1, str "処理エラー")]) := by
  obtain ⟨data0, hp0, hh0⟩ := process_document_pstr selected d0 0
  obtain ⟨data2, hp2, hh2⟩ := process_document_pstr selected d2 2
  have hother : process_document selected PyVal.other 1 =
      (none, [⟨1, str "処理エラー", transcodeErrMsg⟩]) := rfl
  have hrun : process_documents selected
      [PyVal.pstr d0, PyVal.other, PyVal.pstr d2] =
      ([data0, data2],
        (validate_data data0).map (fun m => ⟨0, str "検証エラー", m⟩) ++
          [⟨1, str "処理エラー", transcodeErrMsg⟩] ++
          (validate_data data2).map (fun m => ⟨2, str "検証エラー", m⟩)) := by
    rw [process_documents]
    simp only [List.enum, List.enumFrom, List.foldl_cons, List.foldl_nil,
      hp0, hp2, hother, ne_nil_of_head? data0 _ hh0,
      ne_nil_of_head? data2 _ hh2, ne_eq, not_false_eq_true, if_true,
      List.nil_append, List.append_nil]
    rfl
  have hverr : ∀ (msgs : List Str) (i : Nat),
      (msgs.map (fun m => (⟨i, str "検証エラー", m⟩ : PError))).filter
        (fun e => e.error_type == str "処理エラー") = [] := by
    intro msgs i
    rw [List.filter_eq_nil_iff]
    intro e he
    obtain ⟨m, -, hm⟩ := List.mem_map.mp he
    rw [← hm]
    exact (by decide : ¬((str "検証エラー" == str "処理エラー") = true))
  refine ⟨?_, ?_, ?_⟩
  · rw [hrun]; rfl
  · rw [hrun]
    simp only [List.map_cons, List.map_nil]
    rw [recFind_head data0 _ _ hh0, recFind_head data2 _ _ hh2]
  · rw [hrun]
    simp only [List.filter_append, hverr, List.nil_append, List.append_nil]
    rfl

/-- C5: the body-content extraction result is always one of: empty; an
unmodified candidate of length 150–200; a candidate under 150 characters
with the `（要追記）` marker appended (and not ending in the other
marker); or a truncated core of exactly 200 characters with the
`（文字数超過）` marker appended (and not ending in the other marker). -/
theorem c5_body_output_shape (paragraphs : List Str) :
    extract_main_content paragraphs = [] ∨
    (150 ≤ (extract_main_content paragraphs).length ∧
      (extract_main_content paragraphs).length ≤ 200) ∨
    (∃ core, core.length < 150 ∧
      extract_main_content paragraphs = core ++ markShort ∧
      ¬(markLong <:+ extract_main_content paragraphs)) ∨
    (∃ core, core.length = 200 ∧
      extract_main_content paragraphs = core ++ markLong ∧
      ¬(markShort <:+ extract_main_content paragraphs)) := by
  cases hch : bodyChunks paragraphs with
  | nil => left; rw [extract_main_content, hch]
  | cons c rest =>
    have hr : extract_main_content paragraphs =
        (if (maxByLen c rest).length < 150 then maxByLen c rest ++ markShort
         else if 200 < (maxByLen c rest).length then
           (maxByLen c rest).take 200 ++ markLong
         else maxByLen c rest) := by
      rw [extract_main_content, hch]
    by_cases h1 : (maxByLen c rest).length < 150
    · rw [hr, if_pos h1]
      right; right; left
      exact ⟨maxByLen c rest, h1, rfl, markLong_not_suffix _⟩
    · rw [hr, if_neg h1]
      by_cases h2 : 200 < (maxByLen c rest).length
      · rw [if_pos h2]
        right; right; right
        refine ⟨(maxByLen c rest).take 200, ?_, rfl, markShort_not_suffix _⟩
        rw [List.length_take]
        exact min_eq_left (by omega)
      · rw [if_neg h2]
        right; left
        omega

/-- C6 amended: body extraction returns the empty string whenever every
stripped line is under 20 characters AND every maximal run of consecutive
nonempty non-table lines (with separator-only lines dropped), joined with
single spaces, is still under 20 characters.  (The original per-line bound
alone is not enough: consecutive short lines accumulate into one chunk,
see the counterexample.) -/
theorem c6_amended_short_chunks_empty (paragraphs : List Str)
    (h1 : ∀ l ∈ paragraphs, (pyStrip l).length < 20)
    (h2 : ∀ r ∈ bodyRuns paragraphs, (joinWith [' '] r).length < 20) :
    extract_main_content paragraphs = [] := by
  have hnil : bodyChunks paragraphs = [] := by
    rw [bodyChunks]
    exact bodyScan_nil paragraphs [] false h2 h1
  rw [extract_main_content, hnil]

/-- C6 witness: a three-line input with short lines separated by a blank
line yields the empty body. -/
theorem c6_amended_witness :
    extract_main_content [str "短い", str "", str "これも短い"] = [] :=
  c6_amended_short_chunks_empty [str "短い", str "", str "これも短い"]
    (by decide) (by decide)

/-- C7 amended: when a table block ends, flattening discards the
`+-`-prefixed border lines and emits every remaining cell verbatim as its
own content line, keeping exactly the stripped cells that are nonempty and
not all-whitespace — there is no length-≥-20 filter and no colon-cell
heading conversion. -/
theorem c7_amended_flatten_all_cells (block : List Str) :
    flattenTable block =
      (block.filter (fun l => !pyStartsWith (str "+-") l)).flatMap
        (fun l => ((splitChar '|' l).map pyStrip).filter
          (fun cell => !cell.isEmpty && !pyIsSpaceStr cell)) := by
  rw [flattenTable, flattenTable_foldl _ rfl block []]
  rw [List.nil_append]

/-- C8 amended: `clean_text` collapses every whitespace run (newlines and
tabs included) to a single space, trims both ends, and maps empty input to
the empty string; the non-whitespace characters — full-width digits in
particular — pass through unchanged (no conversion to ASCII digits). -/
theorem c8_amended_clean_text (t : Str) :
    (∀ c ∈ clean_text t, pyWs c = true → c = ' ') ∧
    List.Chain' (fun a b => ¬(a = ' ' ∧ b = ' ')) (clean_text t) ∧
    (clean_text t).head? ≠ some ' ' ∧
    (clean_text t).getLast? ≠ some ' ' ∧
    ((clean_text t).filter (fun c => !pyWs c) =
      t.filter (fun c => !pyWs c)) ∧
    (t = [] → clean_text t = []) :=
  ⟨fun c hc hw => clean_text_ws_mem t c hc hw,
   clean_text_chain t, clean_text_head t, clean_text_last t,
   clean_text_filter t, fun h => by simp [clean_text, h]⟩

/-- C8 witness: the amended contract applied to the empty string. -/
theorem c8_amended_witness : clean_text (str "") = [] :=
  (c8_amended_clean_text (str "")).2.2.2.2.2 rfl

/-- C9: `clean_text` output never contains a newline, so the line scan of
`convert_to_markdown` iterates over exactly one line; consequently at most
one full-width-colon key/value split happens per document, and a document
whose normalized text contains `|` anywhere is routed entirely through the
table-flattening path, while otherwise the output is empty, a single
`### key`/value block, or the line verbatim. -/
theorem c9_single_line_scan (t : Str) :
    ('\n' ∉ clean_text t) ∧
    (splitChar '\n' (markSub (clean_text t))).length = 1 ∧
    ('|' ∈ clean_text t →
      convert_to_markdown t =
        joinWith (str "\n\n")
          (flattenTable [pyStrip (markSub (clean_text t))])) ∧
    (isTableLine (pyStrip (markSub (clean_text t))) = false →
      convert_to_markdown t =
        (if pyStrip (markSub (clean_text t)) = [] then []
         else if (pyStrip (markSub (clean_text t))).contains '：' then
           str "### " ++
             pyStrip (splitFirst '：' (pyStrip (markSub (clean_text t)))).1 ++
             ['\n'] ++
             pyStrip (splitFirst '：' (pyStrip (markSub (clean_text t)))).2
         else pyStrip (markSub (clean_text t)))) := by
  have hn : '\n' ∉ clean_text t := clean_text_no_newline t
  have hnm : '\n' ∉ markSub (clean_text t) := by
    rw [markSub_mem '\n' (by decide) (by decide) (by decide)]
    exact hn
  have hsplit : splitChar '\n' (markSub (clean_text t)) =
      [markSub (clean_text t)] := splitChar_singleton _ _ hnm
  refine ⟨hn, by rw [hsplit]; rfl, ?_, ?_⟩
  · intro hp
    have hpm : '|' ∈ markSub (clean_text t) :=
      (markSub_mem '|' (by decide) (by decide) (by decide) _).mpr hp
    have hps : '|' ∈ pyStrip (markSub (clean_text t)) :=
      (pyStrip_mem _ '|' (by decide)).mpr hpm
    have htab : isTableLine (pyStrip (markSub (clean_text t))) = true := by
      rw [isTableLine, Bool.or_eq_true]
      exact Or.inl ((contains_mem _ '|').mpr hps)
    rw [convert_to_markdown, hsplit, List.foldl_cons, List.foldl_nil,
      convStep]
    simp only [htab, if_true, List.nil_append, ne_eq, List.cons_ne_nil,
      not_false_eq_true, if_true]
  · intro hnt
    rw [convert_to_markdown, hsplit, List.foldl_cons, List.foldl_nil,
      convStep]
    simp only [hnt, Bool.false_eq_true, if_false]
    by_cases hL : pyStrip (markSub (clean_text t)) = []
    · simp only [hL, ne_eq, not_true_eq_false, if_false, ite_false,
        ite_true]
      rfl
    · simp only [hL, ne_eq, not_false_eq_true, if_true, ite_false]
      cases hcol : (pyStrip (markSub (clean_text t))).contains '：' with
      | true =>
        simp only [hcol, if_true, not_true_eq_false, if_false,
          List.nil_append]
        rw [joinWith_singleton]
      | false =>
        simp only [hcol, Bool.false_eq_true, if_false, not_true_eq_false,
          List.nil_append]
        rw [joinWith_singleton]

/-- C9 witness: on `"a|b"` the normalized text contains no newline and the
whole document goes through the table path, flattening to two blocks. -/
theorem c9_witness :
    ('\n' ∉ clean_text (str "a|b")) ∧
      convert_to_markdown (str "a|b") = str "a\n\nb" := by
  refine ⟨(c9_single_line_scan (str "a|b")).1, ?_⟩
  have h := (c9_single_line_scan (str "a|b")).2.2.1 (by decide)
  rw [h]
  decide

/-- C10: for the name and department columns the first-token step never
raises: the `result.split()[0]` indexing is guarded by the emptiness
check, returning the empty string for empty extracted content and the
first whitespace-delimited token otherwise. -/
theorem c10_first_token_guarded (s : DocStructure) (column : Str)
    (h : column = str "名前" ∨ column = str "部署") :
    extract_content_for_column s column ≠ none ∧
    extract_content_for_column s column =
      some (if pyStrip (joinWith [' '] (gatherContent s column)) = [] then []
            else (pySplit (pyStrip (joinWith [' ']
              (gatherContent s column)))).headD []) := by
  have hg : ¬(column = str "原稿") := by
    rcases h with h | h <;> subst h <;> decide
  have hnd : column = str "部署" ∨ column = str "名前" := h.symm
  refine ⟨extract_content_ne_none s column, ?_⟩
  rw [extract_content_for_column]
  simp only [hg, false_and, if_false, ite_false, hnd, if_true, ite_true]
  by_cases hr : pyStrip (joinWith [' '] (gatherContent s column)) = []
  · simp [hr]
  · simp only [hr, ne_eq, not_false_eq_true, if_true, ite_false]
    rcases pyStrip_head (joinWith [' '] (gatherContent s column)) with
      h0 | ⟨c, u, heq, hc⟩
    · exact absurd h0 hr
    · rw [heq]
      cases hsp : pySplit (c :: u) with
      | nil => exact absurd hsp (pySplit_ne_nil c u hc)
      | cons v vs => simp [hsp]

/-- C10 witness: a structure with a `名前` heading containing
`田中 太郎` extracts the first token `田中`. -/
theorem c10_witness :
    extract_content_for_column
      ⟨[], [], [⟨str "名前", [str "田中 太郎"]⟩], []⟩ (str "名前") =
      some (str "田中") := by
  have h := (c10_first_token_guarded
    ⟨[], [], [⟨str "名前", [str "田中 太郎"]⟩], []⟩ (str "名前")
    (Or.inl rfl)).2
  rw [h]
  decide
